import Mathlib

/-!
# meshery-osm: release listing and repository tree resolution

A shallow embedding of `internal/config/releases.go`:

* `GetLatestReleases` and `getLatestReleaseNames` (release fetch, version filter,
  descending sort, truncation);
* `GetFileNames` and `_getname` (commit lookup and recursive tree walk).

Conventions of the embedding.

* A Go call either returns its `(value, error)` pair or panics; `Outcome` records
  which. Every run also records the URLs it requested with `http.Get`, in order.
* A Go slice is a `List`; a `nil` slice and an empty slice are both `[]` (the
  program only ever observes their length and elements).
* A Go `string` is a Lean `String`; comparison is lexicographic on code points,
  which for UTF-8 text is Go's byte-wise comparison.
* The network is a function from the requested URL to what `http.Get` yields.
  A response body carries what `json.Unmarshal` makes of its bytes for each of
  the three Go types the program decodes into.
-/

namespace MesheryOSM

/-! ## Errors and outcomes -/

/-- Modelled from the spec: the wrappers `ErrGetLatestReleases`,
`ErrGetLatestReleaseNames` and `ErrGetManifestNames` are declared in a file of the
package that is not part of the sources at hand; the spec says each failure is
"reported as a single error kind wrapping the underlying cause", so each wrapper
is a constructor holding its cause (hence never nil). `msg` stands for every
other Go error value (`errors.New`, `fmt.Errorf`, library errors). -/
inductive GoError where
  | msg (text : String)
  | ErrGetLatestReleases (cause : GoError)
  | ErrGetLatestReleaseNames (cause : GoError)
  | ErrGetManifestNames (cause : GoError)
  deriving DecidableEq

/-- What a Go call with result type `(α, error)` does: return a pair (the error
is `none` for `nil`) or panic. -/
inductive Outcome (α : Type) where
  | returned (val : α) (err : Option GoError)
  | panicked (reason : String)
  deriving DecidableEq

/-- A finished call: its outcome and the URLs it requested, oldest first. -/
structure Run (α : Type) where
  out : Outcome α
  gets : List String
  deriving DecidableEq

/-! ## Data model (`releases.go`, lines 31-45 and 114-125) -/

/-- Asset describes the github release asset object. -/
structure Asset where
  Name : String
  State : String
  DownloadURL : String
  deriving DecidableEq

/-- Release is used to save the release informations. `Name` has the Go type
`adapter.Version`, a string type. -/
structure Release where
  ID : Int
  TagName : String
  Name : String
  Draft : Bool
  Assets : List (Option Asset)
  deriving DecidableEq

structure roottree where
  URL : String
  deriving DecidableEq

structure commit where
  Tree : roottree
  deriving DecidableEq

structure rootdir where
  Commit : commit
  deriving DecidableEq

/-- A decoded JSON value as `encoding/json` stores it in an `interface{}`. The
payload of a number is never inspected by the program. -/
inductive Value where
  | null
  | bool (b : Bool)
  | number (literal : String)
  | str (s : String)
  | array (items : List Value)
  | object (fields : List (String × Value))

/-- The Go type `map[string]interface{}`: a finite map given by its entries. A
`nil` map (decoded from JSON `null`) is the empty one. -/
abbrev Node := List (String × Value)

structure treeslice where
  Tree : List Node

/-- Index expression `c[key]` on a `map[string]interface{}`: the stored value, or
`none` (the nil interface) when the key is absent. -/
def Node.index (c : Node) (key : String) : Option Value :=
  c.lookup key

/-- Type assertion `v.(string)` in its comma-ok form: `some s` when `ok`. -/
def assertString : Option Value → Option String
  | some (Value.str s) => some s
  | _ => none

/-- Comparison `v == s` of an interface value with a string: true exactly when
the dynamic type is string and the values are equal. -/
def ifaceEqString (v : Option Value) (s : String) : Bool :=
  match v with
  | some (Value.str t) => t == s
  | _ => false

/-! ## Network model -/

/-- The bytes of a response body, represented by the result of `json.Unmarshal`
on them for each target type used by the program (`[]*Release`, `[]rootdir`,
`treeslice`). A `nil` element of `[]*Release` is `none`. -/
structure Body where
  unmarshalReleases : Except GoError (List (Option Release))
  unmarshalCommits : Except GoError (List rootdir)
  unmarshalTree : Except GoError treeslice

/-- An `*http.Response`: status code, the result of `ioutil.ReadAll(resp.Body)`
and the result of `resp.Body.Close()`. -/
structure Response where
  StatusCode : Int
  ReadAll : Except GoError Body
  Close : Option GoError

/-- The remote side: what `http.Get` yields for each URL. -/
abbrev API := String → Except GoError Response

/-! ## Library functions used by the program -/

/-- Go's `<` on strings, on the character sequences. -/
def stringLess : List Char → List Char → Bool
  | _, [] => false
  | [], _ :: _ => true
  | a :: as, b :: bs =>
    if a.toNat < b.toNat then true
    else if b.toNat < a.toNat then false
    else stringLess as bs

/-- Go's `a > b` on strings. -/
def stringGreater (a b : String) : Bool :=
  stringLess b.toList a.toList

/-- The function `sort.Slice(x, less)`: afterwards no element is `less` than one
placed before it. (Any sort meeting that contract yields the same list when
`less` is a strict total order: see `sort_Slice_unique`.) -/
def sort_Slice {α : Type} (x : List α) (less : α → α → Bool) : List α :=
  x.insertionSort (fun a b => less b a = false)

/-- The function `strings.Split(s, sep)` for a one-character separator, on
character sequences: the pieces of `s` between the separators. -/
def splitChars (sep : Char) : List Char → List (List Char)
  | [] => [[]]
  | c :: cs =>
    if c = sep then [] :: splitChars sep cs
    else
      match splitChars sep cs with
      | [] => [[c]]
      | piece :: pieces => (c :: piece) :: pieces

/-- The function `strings.Split(s, sep)` for a one-character separator. -/
def strings_Split (s : String) (sep : Char) : List String :=
  (splitChars sep s.toList).map String.mk

/-- A compiled regular expression of the shape `expr` or `expr$`. -/
structure Regexp where
  expr : RegularExpression Char
  endAnchor : Bool

/-- The method `(*Regexp).MatchString`: whether the string contains a match. With
a trailing `$` the match has to stop at the end of the text, so some suffix of
the string is matched entirely by `expr`. -/
def Regexp.MatchString (r : Regexp) (s : String) : Bool :=
  if r.endAnchor then s.toList.tails.any (fun t => r.expr.rmatch t)
  else s.toList.tails.any (fun t => t.inits.any (fun u => r.expr.rmatch u))

/-- The class `\d`: an ASCII digit. -/
def reDigit : RegularExpression Char :=
  .char '0' + .char '1' + .char '2' + .char '3' + .char '4' +
  .char '5' + .char '6' + .char '7' + .char '8' + .char '9'

/-- The expression `\d+`. -/
def reDigits : RegularExpression Char :=
  reDigit * .star reDigit

/-- The group `(\.\d+)`. -/
def reGroup : RegularExpression Char :=
  .char '.' * reDigits

/-- The pattern text of `getLatestReleaseNames` (a Go raw string). -/
def versionPattern : String := "\\d+(\\.\\d+)\x7b2,\x7d$"

/-- The compiled form of `\d+(\.\d+){2,}$`: the expression `\d+`, then the group
twice, then the group any number of times, anchored at the end of the text. -/
def versionRegexp : Regexp :=
  { expr := reDigits * (reGroup * reGroup * .star reGroup), endAnchor := true }

/-- The function `regexp.Compile`, on the one pattern the program compiles (the
embedding knows no other pattern). -/
def regexp_Compile (pattern : String) : Except GoError Regexp :=
  if pattern = versionPattern then .ok versionRegexp
  else .error (.msg "error parsing regexp")

/-! ## `GetLatestReleases` (lines 82-112) -/

/-- GetLatestReleases fetches the latest releases from the repository. -/
def GetLatestReleases (api : API) (releases : Nat) : Run (List (Option Release)) :=
  let releaseAPIURL :=
    "https://api.github.com/repos/openservicemesh/osm/releases?per_page=" ++ toString releases
  match api releaseAPIURL with
  | .error err => ⟨.returned [] (some (.ErrGetLatestReleases err)), [releaseAPIURL]⟩
  | .ok resp =>
    if resp.StatusCode ≠ 200 then
      ⟨.returned [] (some (.ErrGetLatestReleases
          (.msg ("unexpected status code: " ++ toString resp.StatusCode)))), [releaseAPIURL]⟩
    else
      match resp.ReadAll with
      | .error err => ⟨.returned [] (some (.ErrGetLatestReleases err)), [releaseAPIURL]⟩
      | .ok body =>
        match body.unmarshalReleases with
        | .error err => ⟨.returned [] (some (.ErrGetLatestReleases err)), [releaseAPIURL]⟩
        | .ok releaseList =>
          match resp.Close with
          | some err => ⟨.returned [] (some (.ErrGetLatestReleases err)), [releaseAPIURL]⟩
          | none => ⟨.returned releaseList none, [releaseAPIURL]⟩

/-! ## `getLatestReleaseNames` (lines 47-80) -/

/-- The loop of lines 63-68: append the name of every release matching `r` to
`result`. Reading `release.Name` through a nil pointer panics (`none`). -/
def filterLoop (r : Regexp) : List (Option Release) → List String → Option (List String)
  | [], result => some result
  | none :: _, _ => none
  | some release :: rest, result =>
    let versionStr := release.Name
    if r.MatchString versionStr then filterLoop r rest (result ++ [versionStr])
    else filterLoop r rest result

/-- getLatestReleaseNames returns the names of the latest releases limited by the
"limit" parameter. The allocation of line 57 panics for a negative `limit`; memory
is unbounded in the embedding, so the panic of `make` for a length beyond what the
platform can allocate is not represented. -/
def getLatestReleaseNames (api : API) (limit : Int) : Run (List String) :=
  let fetched := GetLatestReleases api 30
  match fetched.out with
  | .panicked reason => ⟨.panicked reason, fetched.gets⟩
  | .returned _ (some err) => ⟨.returned [] (some (.ErrGetLatestReleaseNames err)), fetched.gets⟩
  | .returned releases none =>
    -- result := make([]adapter.Version, limit)
    if limit < 0 then ⟨.panicked "runtime error: makeslice: len out of range", fetched.gets⟩
    else
      let result : List String := List.replicate limit.toNat ""
      match regexp_Compile versionPattern with
      | .error err => ⟨.returned [] (some (.ErrGetLatestReleaseNames err)), fetched.gets⟩
      | .ok r =>
        match filterLoop r releases result with
        | none => ⟨.panicked "runtime error: invalid memory address or nil pointer dereference", fetched.gets⟩
        | some result =>
          let result := sort_Slice result stringGreater
          let limit := if limit.toNat > result.length then result.length else limit.toNat
          ⟨.returned (result.take limit) none, fetched.gets⟩

/-! ## `GetFileNames` and `_getname` (lines 127-200) -/

/-- The loop of lines 172-184 over the nodes of a listing; `recurse url` is the
call `_getname(url, bpath)` on the remaining segments. Falling out of the loop is
line 185, `return []string{}, err`, where `err` is the nil error left by the
successful `json.Unmarshal`. -/
def descentLoop (dirName : String) (recurse : String → Run (List String)) :
    List Node → Run (List String)
  | [] => ⟨.returned [] none, []⟩
  | c :: rest =>
    match assertString (c.index "url") with
    | none => ⟨.returned [] (some (.msg "invalid URL field")), []⟩
    | some url =>
      if ifaceEqString (c.index "path") dirName then recurse url
      else descentLoop dirName recurse rest

/-- The loop of lines 189-198 and the return of line 199. -/
def baseLoop : List Node → List String → Outcome (List String)
  | [], ans => .returned ans none
  | c :: rest, ans =>
    match assertString (c.index "path") with
    | none => .returned [] (some (.msg "invalid path field"))
    | some path => baseLoop rest (ans ++ [path])

/-- Lines 154-167 of `_getname`: request `shaURL`, read the body and decode it
into a `treeslice`; each failure makes `_getname` return that error with an empty
(or nil) slice. -/
def getTree (api : API) (shaURL : String) : Except GoError treeslice :=
  match api shaURL with
  | .error err => .error err
  | .ok res =>
    match res.ReadAll with
    | .error err => .error err
    | .ok content => content.unmarshalTree

/-- The function `_getname(shaURL, bpath)`. The listing is fetched first (lines
154-167) whether or not segments remain; then lines 168-186 run when `bpath` is
not empty and lines 188-199 when it is. -/
def _getname (api : API) : String → List String → Run (List String)
  | shaURL, [] =>
    match getTree api shaURL with
    | .error err => ⟨.returned [] (some err), [shaURL]⟩
    | .ok t => ⟨baseLoop t.Tree [], [shaURL]⟩
  | shaURL, dirName :: bpath =>
    match getTree api shaURL with
    | .error err => ⟨.returned [] (some err), [shaURL]⟩
    | .ok t =>
      let inner := descentLoop dirName (fun url => _getname api url bpath) t.Tree
      ⟨inner.out, shaURL :: inner.gets⟩

/-- GetFileNames takes the url of a github repo and the path to a directory. Then
returns all the filenames from that directory. -/
def GetFileNames (api : API) (url : String) (path : String) : Run (List String) :=
  let commitsURL := url ++ "/commits"
  match api commitsURL with
  | .error err => ⟨.returned [] (some (.ErrGetManifestNames err)), [commitsURL]⟩
  | .ok res =>
    match res.ReadAll with
    | .error err => ⟨.returned [] (some (.ErrGetManifestNames err)), [commitsURL]⟩
    | .ok content =>
      match content.unmarshalCommits with
      | .error err => ⟨.returned [] (some (.ErrGetManifestNames err)), [commitsURL]⟩
      | .ok r =>
        match r with
        | [] => ⟨.panicked "runtime error: index out of range [0] with length 0", [commitsURL]⟩
        | r0 :: _ =>
          let shaurl := r0.Commit.Tree.URL
          let bpath := strings_Split path '/'
          let walk := _getname api shaurl bpath
          match walk.out with
          | .returned ans none => ⟨.returned ans none, commitsURL :: walk.gets⟩
          | .returned ans (some err) =>
            ⟨.returned ans (some (.ErrGetManifestNames err)), commitsURL :: walk.gets⟩
          | .panicked reason => ⟨.panicked reason, commitsURL :: walk.gets⟩

/-! ## Vocabulary of the specification -/

/-- Go's `a >= b` on strings. -/
def stringGreaterEq (a b : String) : Bool :=
  !stringLess a.toList b.toList

/-- The URL requested by `GetLatestReleases`. -/
def releaseAPIURL (releases : Nat) : String :=
  "https://api.github.com/repos/openservicemesh/osm/releases?per_page=" ++ toString releases

/-- The display names of the fetched releases, in the order fetched. -/
def fetchedNames (releases : List (Option Release)) : List String :=
  (releases.filterMap id).map Release.Name

/-- The qualifying names: the fetched names that match the version pattern. -/
def qualifyingNames (releases : List (Option Release)) : List String :=
  (fetchedNames releases).filter versionRegexp.MatchString

/-- A non-empty run of ASCII digits. -/
def isDigitRun (d : List Char) : Prop :=
  d ≠ [] ∧ ∀ c ∈ d, c.isDigit = true

/-- The version pattern in the words of the specification: the name ends in a run
of digits followed by at least two groups, each a dot and a run of digits. -/
def endsInDottedNumeric (s : String) : Prop :=
  ∃ (pre d : List Char) (groups : List (List Char)),
    s.toList = pre ++ d ++ (groups.map (fun g => '.' :: g)).flatten ∧
    isDigitRun d ∧ 2 ≤ groups.length ∧ ∀ g ∈ groups, isDigitRun g

/-- The node has the field and its value is a string. -/
def hasStringField (c : Node) (key : String) : Prop :=
  ∃ s, c.index key = some (.str s)

/-- The node has the field, with a value that is not a string. -/
def presentNotString (c : Node) (key : String) : Prop :=
  ∃ v, c.index key = some v ∧ ∀ s, v ≠ .str s

/-- Every entry of the listing has string `url` and `path` fields. -/
def wellFormed (t : treeslice) : Prop :=
  ∀ c ∈ t.Tree, hasStringField c "url" ∧ hasStringField c "path"

/-- The path `segs` resolves from the tree at URL `u` to the listing `terminal`:
every listing on the way can be fetched and is well formed, and each segment
names an entry of the listing reached so far (the first such entry is entered). -/
inductive Resolves (api : API) : String → List String → treeslice → Prop
  | done (u : String) (t : treeslice) :
      getTree api u = .ok t → wellFormed t → Resolves api u [] t
  | step (u seg : String) (rest : List String) (t : treeslice) (c : Node) (next : String)
      (terminal : treeslice) :
      getTree api u = .ok t → wellFormed t →
      t.Tree.find? (fun d => ifaceEqString (d.index "path") seg) = some c →
      c.index "url" = some (.str next) →
      Resolves api next rest terminal → Resolves api u (seg :: rest) terminal

/-- The descent loop enters a node with URL `next`: some node has `path` equal to
the segment and a string `url`, and every node before it has a string `url` and
is not named by the segment. -/
def entersNode (nodes : List Node) (seg next : String) : Prop :=
  ∃ pre c post, nodes = pre ++ c :: post ∧
    (∀ d ∈ pre, hasStringField d "url" ∧ ifaceEqString (d.index "path") seg = false) ∧
    c.index "url" = some (.str next) ∧ ifaceEqString (c.index "path") seg = true

/-- The walk `_getname(u, segs)` reaches the call `_getname(shaURL, remaining)`: it
is that call, or it fetches its listing, enters a node and the call on that node
reaches it. -/
inductive Reaches (api : API) : String → List String → String → List String → Prop
  | start (u : String) (segs : List String) : Reaches api u segs u segs
  | descend (u seg : String) (rest : List String) (t : treeslice) (next shaURL : String)
      (remaining : List String) :
      getTree api u = .ok t → entersNode t.Tree seg next →
      Reaches api next rest shaURL remaining → Reaches api u (seg :: rest) shaURL remaining

/-! ## Concrete inputs used in the examples -/

/-- A release record with the given display name. -/
def releaseNamed (name : String) : Option Release :=
  some { ID := 0, TagName := name, Name := name, Draft := false, Assets := [] }

/-- The body `[{"name": ...}, ...]`: a JSON array of release objects. Decoded as
a commit list it gives one zero record per element (the objects have no `commit`
field); it is not a JSON object, so it does not decode as a tree listing. -/
def releasesBody (names : List String) : Body where
  unmarshalReleases := .ok (names.map releaseNamed)
  unmarshalCommits := .ok (names.map (fun _ => { Commit := { Tree := { URL := "" } } }))
  unmarshalTree := .error (.msg "json: cannot unmarshal array into Go value of type config.treeslice")

/-- A release endpoint answering every request with the given status and the
release list with the given names. -/
def releaseServer (status : Int) (names : List String) : API :=
  fun _ => .ok { StatusCode := status, ReadAll := .ok (releasesBody names), Close := none }

/-- The body `[{"commit": {"tree": {"url": ...}}}, ...]`: a JSON array of commit
objects. Decoded as a release list it gives one zero record per element; it does
not decode as a tree listing. -/
def commitsBody (r : List rootdir) : Body where
  unmarshalReleases :=
    .ok (r.map (fun _ => some { ID := 0, TagName := "", Name := "", Draft := false, Assets := [] }))
  unmarshalCommits := .ok r
  unmarshalTree := .error (.msg "json: cannot unmarshal array into Go value of type config.treeslice")

/-- The body `{"tree": [...]}`: a JSON object, which decodes as a tree listing and
as neither of the two slices. -/
def treeBody (nodes : List Node) : Body where
  unmarshalReleases :=
    .error (.msg "json: cannot unmarshal object into Go value of type []*config.Release")
  unmarshalCommits :=
    .error (.msg "json: cannot unmarshal object into Go value of type []config.rootdir")
  unmarshalTree := .ok { Tree := nodes }

/-- A successful response with the given body. -/
def okResponse (body : Body) : Except GoError Response :=
  .ok { StatusCode := 200, ReadAll := .ok body, Close := none }

/-- A tree entry with string `path` and `url` fields. -/
def entry (path url : String) : Node :=
  [("path", .str path), ("type", .str "tree"), ("url", .str url)]

/-- The listing of the root tree of `fakeRepo`. -/
def rootListing : List Node :=
  [entry "README.md" "blob/readme", entry "a" "tree/a"]

/-- The listing of the directory `a` of `fakeRepo`. -/
def aListing : List Node :=
  [entry "b" "tree/b"]

/-- The listing of the directory `a/b` of `fakeRepo`. -/
def leafListing : List Node :=
  [entry "x.yaml" "blob/x", entry "y.yaml" "blob/y"]

/-- A fake repository: `root -> "a" -> "b"`, the directory `b` holding `x.yaml`
and `y.yaml`. -/
def fakeRepo : API := fun url =>
  if url = "https://api.test/repo/commits" then
    okResponse (commitsBody [{ Commit := { Tree := { URL := "tree/root" } } }])
  else if url = "tree/root" then okResponse (treeBody rootListing)
  else if url = "tree/a" then okResponse (treeBody aListing)
  else if url = "tree/b" then okResponse (treeBody leafListing)
  else .error (.msg "no such host")

/-- A repository whose commit list is empty. -/
def emptyRepo : API := fun url =>
  if url = "https://api.test/repo/commits" then okResponse (commitsBody [])
  else .error (.msg "no such host")

/-- A node with a string `path` and a numeric `url`. -/
def numericURLNode : Node :=
  [("path", .str "x.yaml"), ("url", .number "5")]

/-- A node with a numeric `path` and a string `url`. -/
def numericPathNode : Node :=
  [("path", .number "7"), ("url", .str "tree/seven")]

/-- A remote side with ill-typed listings: the tree `tree/odd` holds
`numericURLNode`, the tree `tree/odd2` holds `numericPathNode`, the root tree of
the repository is `tree/odd`, and the release endpoint answers with status 500. -/
def oddRepo : API := fun url =>
  if url = "https://api.test/repo/commits" then
    okResponse (commitsBody [{ Commit := { Tree := { URL := "tree/odd" } } }])
  else if url = "tree/odd" then okResponse (treeBody [numericURLNode])
  else if url = "tree/odd2" then okResponse (treeBody [numericPathNode])
  else if url = releaseAPIURL 30 then
    .ok { StatusCode := 500, ReadAll := .ok (releasesBody ["1.2.3"]), Close := none }
  else .error (.msg "no such host")

/-- The root listing of `mixedRepo`: a node with a numeric `path`, the directory
`a`, and after it a node with a numeric `url`. -/
def mixedRoot : List Node :=
  [numericPathNode, entry "a" "mixed/a", numericURLNode]

/-- The listing of the directory `a` of `mixedRepo`: the directory `sub`, then a
node with a numeric `url`. -/
def mixedA : List Node :=
  [entry "sub" "mixed/sub", numericURLNode]

/-- The listing of the directory `a/sub` of `mixedRepo`: a file, then a node with
a numeric `path`. -/
def mixedSub : List Node :=
  [entry "ok.yaml" "blob/ok", numericPathNode]

/-- A repository with ill-typed nodes at every level. -/
def mixedRepo : API := fun url =>
  if url = "https://api.test/mixed/commits" then
    okResponse (commitsBody [{ Commit := { Tree := { URL := "mixed/root" } } }])
  else if url = "mixed/root" then okResponse (treeBody mixedRoot)
  else if url = "mixed/a" then okResponse (treeBody mixedA)
  else if url = "mixed/sub" then okResponse (treeBody mixedSub)
  else .error (.msg "no such host")

/-! ## String order and sorting -/

theorem stringLess_nil_right (a : List Char) : stringLess a [] = false := by
  cases a <;> rfl

theorem stringLess_irrefl (a : List Char) : stringLess a a = false := by
  induction a with
  | nil => rfl
  | cons x xs ih => simp [stringLess, ih]

/-- Go's `<` on strings is asymmetric. -/
theorem stringLess_asymm : ∀ (a b : List Char), stringLess a b = true → stringLess b a = false
  | _, [], h => by simp [stringLess_nil_right] at h
  | [], _ :: _, _ => rfl
  | x :: xs, y :: ys, h => by
    simp only [stringLess] at h ⊢
    split_ifs at h ⊢ with h1 h2 h3 <;> first | omega | exact stringLess_asymm xs ys h | simp_all

/-- If `a < c` then every `b` has `a < b` or `b < c`. -/
theorem stringLess_connected : ∀ (a b c : List Char), stringLess a c = true →
    stringLess a b = true ∨ stringLess b c = true
  | _, _, [], h => by simp [stringLess_nil_right] at h
  | [], [], _ :: _, _ => Or.inr rfl
  | [], _ :: _, _ :: _, _ => Or.inl rfl
  | x :: xs, [], z :: zs, _ => Or.inr rfl
  | x :: xs, y :: ys, z :: zs, h => by
    simp only [stringLess] at h ⊢
    have ih := stringLess_connected xs ys zs
    split_ifs at h ⊢ <;> first | omega | simp_all

/-- Two strings neither of which is less than the other are equal. -/
theorem stringLess_trichotomy : ∀ (a b : List Char), stringLess a b = false →
    stringLess b a = false → a = b
  | [], [], _, _ => rfl
  | [], _ :: _, h, _ => by simp [stringLess] at h
  | _ :: _, [], _, h => by simp [stringLess] at h
  | x :: xs, y :: ys, h1, h2 => by
    simp only [stringLess] at h1 h2
    split_ifs at h1 h2 with h3 h4
    have hxy : x = y := by
      apply Char.ext
      apply UInt32.ext
      show x.toNat = y.toNat
      omega
    rw [hxy, stringLess_trichotomy xs ys h1 h2]

/-- The sort only rearranges the slice. -/
theorem sort_Slice_perm {α : Type} (x : List α) (less : α → α → Bool) :
    (sort_Slice x less).Perm x :=
  List.perm_insertionSort _ x

theorem notGreater_total (a b : String) :
    stringGreater b a = false ∨ stringGreater a b = false := by
  cases h : stringGreater b a
  · exact Or.inl rfl
  · exact Or.inr (stringLess_asymm _ _ h)

theorem notGreater_trans (a b c : String) (hab : stringGreater b a = false)
    (hbc : stringGreater c b = false) : stringGreater c a = false := by
  cases h : stringGreater c a
  · rfl
  · have hab' : stringLess a.toList b.toList = false := hab
    have hbc' : stringLess b.toList c.toList = false := hbc
    rcases stringLess_connected _ b.toList _ h with h1 | h1
    · exact absurd (h1.symm.trans hab') (by decide)
    · exact absurd (h1.symm.trans hbc') (by decide)

/-- After `sort.Slice` with `less = (>)`, no element is greater than one before it. -/
theorem sort_Slice_sorted (x : List String) :
    (sort_Slice x stringGreater).Pairwise (fun a b => stringGreater b a = false) :=
  haveI : IsTotal String (fun a b => stringGreater b a = false) := ⟨notGreater_total⟩
  haveI : IsTrans String (fun a b => stringGreater b a = false) := ⟨notGreater_trans⟩
  List.sorted_insertionSort _ x

/-- The contract of `sort.Slice` fixes the result: every rearrangement of the slice that
is in descending order is the list computed by `sort_Slice`. -/
theorem sort_Slice_unique (x y : List String) (hperm : y.Perm x)
    (hsorted : y.Pairwise (fun a b => stringGreater b a = false)) :
    y = sort_Slice x stringGreater :=
  haveI : IsAntisymm String (fun a b => stringGreater b a = false) :=
    ⟨fun _ _ hab hba => String.ext (stringLess_trichotomy _ _ hab hba)⟩
  List.eq_of_perm_of_sorted (hperm.trans (sort_Slice_perm x _).symm) hsorted (sort_Slice_sorted x)

/-! ## The version pattern -/

theorem char_eq_of_toNat_eq (c d : Char) (h : c.toNat = d.toNat) : c = d := by
  apply Char.ext
  apply UInt32.ext
  exact h

theorem mem_language_singleton (x y : List Char) : x ∈ ({y} : Language Char) ↔ x = y :=
  Iff.rfl

/-- The class `\d` matches exactly the one-character strings holding an ASCII digit. -/
theorem mem_reDigit (x : List Char) :
    x ∈ reDigit.matches' ↔ ∃ c, x = [c] ∧ c.isDigit = true := by
  simp only [reDigit, RegularExpression.matches'_add, RegularExpression.matches'_char,
    Language.mem_add, mem_language_singleton]
  constructor
  · intro h
    rcases h with ((((((((h | h) | h) | h) | h) | h) | h) | h) | h) | h <;>
      (subst h; exact ⟨_, rfl, by decide⟩)
  · rintro ⟨c, rfl, hc⟩
    have hr : 48 ≤ c.toNat ∧ c.toNat ≤ 57 := by
      simp only [Char.isDigit, Bool.and_eq_true, decide_eq_true_eq] at hc
      exact hc
    obtain ⟨h1, h2⟩ := hr
    have hcases : c.toNat = 48 ∨ c.toNat = 49 ∨ c.toNat = 50 ∨ c.toNat = 51 ∨ c.toNat = 52 ∨
        c.toNat = 53 ∨ c.toNat = 54 ∨ c.toNat = 55 ∨ c.toNat = 56 ∨ c.toNat = 57 := by omega
    rcases hcases with h | h | h | h | h | h | h | h | h | h
    · rw [char_eq_of_toNat_eq c '0' h]; simp
    · rw [char_eq_of_toNat_eq c '1' h]; simp
    · rw [char_eq_of_toNat_eq c '2' h]; simp
    · rw [char_eq_of_toNat_eq c '3' h]; simp
    · rw [char_eq_of_toNat_eq c '4' h]; simp
    · rw [char_eq_of_toNat_eq c '5' h]; simp
    · rw [char_eq_of_toNat_eq c '6' h]; simp
    · rw [char_eq_of_toNat_eq c '7' h]; simp
    · rw [char_eq_of_toNat_eq c '8' h]; simp
    · rw [char_eq_of_toNat_eq c '9' h]; simp

theorem mem_star_reDigit (x : List Char) :
    x ∈ (RegularExpression.star reDigit).matches' ↔ ∀ c ∈ x, c.isDigit = true := by
  rw [RegularExpression.matches'_star, Language.mem_kstar]
  constructor
  · rintro ⟨L, rfl, hL⟩ c hc
    obtain ⟨y, hy, hcy⟩ := List.mem_flatten.mp hc
    obtain ⟨d, rfl, hd⟩ := (mem_reDigit y).mp (hL y hy)
    rw [List.mem_singleton.mp hcy]
    exact hd
  · intro h
    refine ⟨x.map (fun c => [c]), ?_, ?_⟩
    · induction x with
      | nil => rfl
      | cons c cs ih =>
        simp only [List.map_cons, List.flatten_cons, List.singleton_append]
        rw [← ih (fun d hd => h d (List.mem_cons_of_mem _ hd))]
    · intro y hy
      obtain ⟨c, hc, rfl⟩ := List.mem_map.mp hy
      exact (mem_reDigit _).mpr ⟨c, rfl, h c hc⟩

/-- The expression `\d+` matches exactly the non-empty runs of digits. -/
theorem mem_reDigits (x : List Char) : x ∈ reDigits.matches' ↔ isDigitRun x := by
  rw [reDigits, RegularExpression.matches'_mul, Language.mem_mul]
  constructor
  · rintro ⟨a, ha, b, hb, rfl⟩
    obtain ⟨c, rfl, hc⟩ := (mem_reDigit a).mp ha
    refine ⟨by simp, ?_⟩
    intro d hd
    rcases List.mem_append.mp hd with h | h
    · rw [List.mem_singleton.mp h]; exact hc
    · exact (mem_star_reDigit b).mp hb d h
  · rintro ⟨hne, hall⟩
    cases x with
    | nil => exact absurd rfl hne
    | cons c cs =>
      exact ⟨[c], (mem_reDigit _).mpr ⟨c, rfl, hall c (List.mem_cons_self _ _)⟩, cs,
        (mem_star_reDigit cs).mpr (fun d hd => hall d (List.mem_cons_of_mem _ hd)), rfl⟩

/-- The group `(\.\d+)` matches exactly a dot followed by a non-empty run of digits. -/
theorem mem_reGroup (x : List Char) :
    x ∈ reGroup.matches' ↔ ∃ g, x = '.' :: g ∧ isDigitRun g := by
  rw [reGroup, RegularExpression.matches'_mul, Language.mem_mul]
  simp only [RegularExpression.matches'_char, mem_language_singleton, mem_reDigits]
  constructor
  · rintro ⟨a, rfl, b, hb, rfl⟩
    exact ⟨b, rfl, hb⟩
  · rintro ⟨g, rfl, hg⟩
    exact ⟨_, rfl, g, hg, rfl⟩

theorem mem_star_reGroup (x : List Char) :
    x ∈ (RegularExpression.star reGroup).matches' ↔
      ∃ groups : List (List Char), x = (groups.map (fun g => '.' :: g)).flatten ∧
        ∀ g ∈ groups, isDigitRun g := by
  rw [RegularExpression.matches'_star, Language.mem_kstar]
  constructor
  · rintro ⟨L, rfl, hL⟩
    refine ⟨L.map List.tail, ?_, ?_⟩
    · congr 1
      rw [List.map_map]
      have hid : ∀ y ∈ L, ((fun g => '.' :: g) ∘ List.tail) y = id y := by
        intro y hy
        obtain ⟨g, rfl, _⟩ := (mem_reGroup y).mp (hL y hy)
        rfl
      rw [List.map_congr_left hid, List.map_id]
    · intro g hg
      obtain ⟨y, hy, rfl⟩ := List.mem_map.mp hg
      obtain ⟨g, rfl, hrun⟩ := (mem_reGroup y).mp (hL y hy)
      exact hrun
  · rintro ⟨groups, rfl, hall⟩
    refine ⟨groups.map (fun g => '.' :: g), rfl, ?_⟩
    intro y hy
    obtain ⟨g, hg, rfl⟩ := List.mem_map.mp hy
    exact (mem_reGroup _).mpr ⟨g, rfl, hall g hg⟩

/-- The expression before the anchor matches exactly a run of digits followed by at least
two dot-and-digits groups. -/
theorem mem_versionRegexp (x : List Char) :
    x ∈ versionRegexp.expr.matches' ↔
      ∃ (d : List Char) (groups : List (List Char)),
        x = d ++ (groups.map (fun g => '.' :: g)).flatten ∧
        isDigitRun d ∧ 2 ≤ groups.length ∧ ∀ g ∈ groups, isDigitRun g := by
  simp only [versionRegexp, RegularExpression.matches'_mul, Language.mem_mul, mem_reDigits,
    mem_reGroup, mem_star_reGroup]
  constructor
  · rintro ⟨d, hd, rest, ⟨ab, ⟨a, ⟨g1, rfl, h1⟩, b, ⟨g2, rfl, h2⟩, rfl⟩, c,
      ⟨gs, rfl, hgs⟩, rfl⟩, rfl⟩
    refine ⟨d, g1 :: g2 :: gs, by simp, hd, by simp, ?_⟩
    intro g hg
    rcases List.mem_cons.mp hg with rfl | hg
    · exact h1
    rcases List.mem_cons.mp hg with rfl | hg
    · exact h2
    · exact hgs g hg
  · rintro ⟨d, groups, rfl, hd, hlen, hall⟩
    match groups, hlen, hall with
    | g1 :: g2 :: gs, _, hall =>
      refine ⟨d, hd, _, ⟨_, ⟨_, ⟨g1, rfl, hall g1 (by simp)⟩, _, ⟨g2, rfl, hall g2 (by simp)⟩,
        rfl⟩, _, ⟨gs, rfl, fun g hg => hall g (by simp [hg])⟩, rfl⟩, ?_⟩
      simp

/-- The compiled pattern matches a name exactly when the name ends in a dotted-numeric
version, as the specification words it. -/
theorem MatchString_versionRegexp (s : String) :
    versionRegexp.MatchString s = true ↔ endsInDottedNumeric s := by
  have hanchor : versionRegexp.endAnchor = true := rfl
  simp only [Regexp.MatchString, hanchor, if_true, List.any_eq_true, List.mem_tails,
    RegularExpression.rmatch_iff_matches', mem_versionRegexp, endsInDottedNumeric]
  constructor
  · rintro ⟨t, ⟨pre, hpre⟩, d, groups, rfl, hd, hlen, hall⟩
    exact ⟨pre, d, groups, by rw [← hpre, List.append_assoc], hd, hlen, hall⟩
  · rintro ⟨pre, d, groups, hs, hd, hlen, hall⟩
    exact ⟨_, ⟨pre, by rw [hs, List.append_assoc]⟩, d, groups, rfl, hd, hlen, hall⟩

/-! ## Release filtering -/

theorem regexp_Compile_versionPattern : regexp_Compile versionPattern = .ok versionRegexp := by
  simp [regexp_Compile]

/-- Without nil pointers the loop appends the matching names, in order, to the buffer. -/
theorem filterLoop_eq (r : Regexp) : ∀ (releases : List (Option Release)) (result : List String),
    none ∉ releases →
    filterLoop r releases result =
      some (result ++ ((releases.filterMap id).map Release.Name).filter r.MatchString)
  | [], result, _ => by simp [filterLoop]
  | none :: _, _, h => by simp at h
  | some release :: rest, result, h => by
    have hrest : none ∉ rest := fun hmem => h (List.mem_cons_of_mem _ hmem)
    simp only [filterLoop]
    split
    · rename_i hm
      rw [filterLoop_eq r rest _ hrest]
      simp [List.filter_cons, hm]
    · rename_i hm
      rw [filterLoop_eq r rest _ hrest]
      simp [List.filter_cons, hm]

/-- A nil pointer among the releases makes the loop panic. -/
theorem filterLoop_nil_pointer (r : Regexp) : ∀ (releases : List (Option Release))
    (result : List String), none ∈ releases → filterLoop r releases result = none
  | [], _, h => by simp at h
  | none :: _, _, _ => by simp [filterLoop]
  | some release :: rest, result, h => by
    have hrest : none ∈ rest := by simpa using h
    simp only [filterLoop]
    split <;> exact filterLoop_nil_pointer r rest _ hrest

/-- The value returned after a successful fetch: the first `limit` entries of the sorted
buffer, which holds `limit` empty strings and the qualifying names. -/
theorem getLatestReleaseNames_eq (api : API) (limit : Int) (releases : List (Option Release))
    (hfetch : (GetLatestReleases api 30).out = .returned releases none)
    (hlimit : 0 ≤ limit) (hnil : none ∉ releases) :
    (getLatestReleaseNames api limit).out =
      .returned ((sort_Slice (List.replicate limit.toNat "" ++ qualifyingNames releases)
        stringGreater).take limit.toNat) none := by
  have hlen : ¬ limit.toNat >
      (sort_Slice (List.replicate limit.toNat "" ++ qualifyingNames releases)
        stringGreater).length := by
    simp [sort_Slice, List.length_insertionSort]
  simp only [getLatestReleaseNames, hfetch, regexp_Compile_versionPattern]
  rw [if_neg (by omega), filterLoop_eq _ _ _ hnil]
  simp only [qualifyingNames, fetchedNames] at hlen ⊢
  rw [if_neg hlen]

/-- After a successful fetch the result always has exactly `limit` entries. -/
theorem getLatestReleaseNames_length (api : API) (limit : Int) (releases : List (Option Release))
    (result : List String)
    (hfetch : (GetLatestReleases api 30).out = .returned releases none)
    (hlimit : 0 ≤ limit) (hnil : none ∉ releases)
    (hres : (getLatestReleaseNames api limit).out = .returned result none) :
    (result.length : Int) = limit := by
  rw [getLatestReleaseNames_eq api limit releases hfetch hlimit hnil] at hres
  injection hres with hval _
  subst hval
  simp [sort_Slice, List.length_insertionSort]
  omega

/-- The three ways a call of `getLatestReleaseNames` can end. -/
theorem getLatestReleaseNames_cases (api : API) (limit : Int) :
    (∃ reason, (getLatestReleaseNames api limit).out = .panicked reason) ∨
    (∃ e, (getLatestReleaseNames api limit).out = .returned [] (some e)) ∨
    (∃ buf n, (getLatestReleaseNames api limit).out =
      .returned ((sort_Slice buf stringGreater).take n) none) := by
  unfold getLatestReleaseNames
  simp only [regexp_Compile_versionPattern]
  split
  · exact Or.inl ⟨_, rfl⟩
  · exact Or.inr (Or.inl ⟨_, rfl⟩)
  · split
    · exact Or.inl ⟨_, rfl⟩
    · split
      · exact Or.inl ⟨_, rfl⟩
      · exact Or.inr (Or.inr ⟨_, _, rfl⟩)

/-- Every entry of the result is the empty string or a fetched name matching the pattern. -/
theorem getLatestReleaseNames_mem (api : API) (limit : Int) (releases : List (Option Release))
    (result : List String)
    (hfetch : (GetLatestReleases api 30).out = .returned releases none)
    (hlimit : 0 ≤ limit) (hnil : none ∉ releases)
    (hres : (getLatestReleaseNames api limit).out = .returned result none)
    (name : String) (hmem : name ∈ result) :
    name = "" ∨ (name ∈ fetchedNames releases ∧ versionRegexp.MatchString name = true) := by
  rw [getLatestReleaseNames_eq api limit releases hfetch hlimit hnil] at hres
  injection hres with hval _
  subst hval
  have h1 := (sort_Slice_perm _ _).mem_iff.mp (List.mem_of_mem_take hmem)
  rcases List.mem_append.mp h1 with h2 | h2
  · exact Or.inl (List.eq_of_mem_replicate h2)
  · exact Or.inr (by simpa [qualifyingNames] using h2)

/-- The names "1.2.3", "1.3.0-rc1", "2.0.0" with limit 2: the release candidate is dropped. -/
theorem getLatestReleaseNames_filter_example :
    qualifyingNames (["1.2.3", "1.3.0-rc1", "2.0.0"].map releaseNamed) = ["1.2.3", "2.0.0"] ∧
    (getLatestReleaseNames (releaseServer 200 ["1.2.3", "1.3.0-rc1", "2.0.0"]) 2).out =
      .returned ["2.0.0", "1.2.3"] none := by
  decide

/-- The loop of lines 63-68 appends to the buffer exactly the fetched names that
end in a dotted-numeric version, in the order fetched. -/
theorem filterLoop_retains (releases : List (Option Release)) (result : List String)
    (hnil : none ∉ releases) :
    ∃ kept, filterLoop versionRegexp releases result = some (result ++ kept) ∧
      kept = qualifyingNames releases ∧
      ∀ name, name ∈ kept ↔ name ∈ fetchedNames releases ∧ endsInDottedNumeric name := by
  refine ⟨qualifyingNames releases, filterLoop_eq _ _ _ hnil, rfl, ?_⟩
  intro name
  simp only [qualifyingNames, List.mem_filter, MatchString_versionRegexp]

/-! ## Tree walk -/

theorem presentNotString_assert (c : Node) (key : String) (h : presentNotString c key) :
    assertString (c.index key) = none := by
  obtain ⟨v, hv, hne⟩ := h
  rw [hv]
  cases v <;> first | rfl | exact absurd rfl (hne _)

theorem assertString_some (v : Option Value) (s : String) (h : assertString v = some s) :
    v = some (.str s) := by
  cases v with
  | none => cases h
  | some w =>
    cases w <;> first | (cases h; rfl) | cases h

/-- On nodes with string `path` fields the base-case loop returns those fields in order. -/
theorem baseLoop_strings : ∀ (nodes : List Node) (ans : List String),
    (∀ c ∈ nodes, hasStringField c "path") →
    ∃ names, baseLoop nodes ans = .returned (ans ++ names) none ∧
      nodes.map (fun c => c.index "path") = names.map (fun n => some (Value.str n))
  | [], ans, _ => ⟨[], by simp [baseLoop], rfl⟩
  | c :: rest, ans, h => by
    obtain ⟨p, hp⟩ := h c (List.mem_cons_self _ _)
    obtain ⟨names, hrun, hmap⟩ :=
      baseLoop_strings rest (ans ++ [p]) (fun d hd => h d (List.mem_cons_of_mem _ hd))
    refine ⟨p :: names, ?_, ?_⟩
    · simp only [baseLoop, hp, assertString]
      rw [hrun]
      simp
    · simp [hp, hmap]

/-- A node without a string `path` makes the base-case loop fail. -/
theorem baseLoop_bad_path : ∀ (nodes : List Node) (ans : List String) (c : Node),
    c ∈ nodes → assertString (c.index "path") = none →
    baseLoop nodes ans = .returned [] (some (.msg "invalid path field"))
  | [], _, _, h, _ => by simp at h
  | d :: rest, ans, c, h, hbad => by
    simp only [baseLoop]
    split
    · rfl
    · rename_i path hd
      rcases List.mem_cons.mp h with rfl | hmem
      · rw [hbad] at hd; cases hd
      · exact baseLoop_bad_path rest _ c hmem hbad

/-- On nodes with string `url` fields the descent loop enters the first node whose `path`
is the wanted segment. -/
theorem descentLoop_found (dirName : String) (recurse : String → Run (List String)) :
    ∀ (nodes : List Node) (c : Node) (next : String),
    (∀ d ∈ nodes, hasStringField d "url") →
    nodes.find? (fun d => ifaceEqString (d.index "path") dirName) = some c →
    c.index "url" = some (.str next) →
    descentLoop dirName recurse nodes = recurse next
  | [], _, _, _, h, _ => by simp at h
  | d :: rest, c, next, hurl, hfind, hc => by
    obtain ⟨u, hu⟩ := hurl d (List.mem_cons_self _ _)
    simp only [descentLoop, hu, assertString]
    rw [List.find?_cons] at hfind
    cases hm : ifaceEqString (d.index "path") dirName
    · rw [hm] at hfind
      simp only [Bool.false_eq_true, ↓reduceIte]
      exact descentLoop_found dirName recurse rest c next
        (fun e he => hurl e (List.mem_cons_of_mem _ he)) hfind hc
    · rw [hm] at hfind
      injection hfind with hdc
      subst hdc
      rw [hu] at hc
      injection hc with hc
      injection hc with hc
      subst hc
      simp

/-- When no node is named by the segment the descent loop returns an empty slice and the
nil error. -/
theorem descentLoop_not_found (dirName : String) (recurse : String → Run (List String)) :
    ∀ (nodes : List Node),
    (∀ d ∈ nodes, hasStringField d "url") →
    (∀ d ∈ nodes, ifaceEqString (d.index "path") dirName = false) →
    descentLoop dirName recurse nodes = ⟨.returned [] none, []⟩
  | [], _, _ => rfl
  | d :: rest, hurl, hpath => by
    obtain ⟨u, hu⟩ := hurl d (List.mem_cons_self _ _)
    simp only [descentLoop, hu, assertString, hpath d (List.mem_cons_self _ _)]
    simp only [Bool.false_eq_true, ↓reduceIte]
    exact descentLoop_not_found dirName recurse rest
      (fun e he => hurl e (List.mem_cons_of_mem _ he))
      (fun e he => hpath e (List.mem_cons_of_mem _ he))

/-- A node without a string `url`, met before any node named by the segment, makes the
descent loop fail. -/
theorem descentLoop_bad_url (dirName : String) (recurse : String → Run (List String)) :
    ∀ (pre : List Node) (c : Node) (post : List Node),
    (∀ d ∈ pre, ifaceEqString (d.index "path") dirName = false) →
    assertString (c.index "url") = none →
    descentLoop dirName recurse (pre ++ c :: post) =
      ⟨.returned [] (some (.msg "invalid URL field")), []⟩
  | [], c, post, _, hbad => by simp [descentLoop, hbad]
  | d :: pre, c, post, hpath, hbad => by
    simp only [List.cons_append, descentLoop]
    split
    · rfl
    · rw [hpath d (List.mem_cons_self _ _)]
      simp only [Bool.false_eq_true, ↓reduceIte]
      exact descentLoop_bad_url dirName recurse pre c post
        (fun e he => hpath e (List.mem_cons_of_mem _ he)) hbad

/-- A non-empty result with a nil error can only come from entering a node. -/
theorem descentLoop_nonempty_entered (dirName : String) (recurse : String → Run (List String)) :
    ∀ (nodes : List Node) (names : List String),
    (descentLoop dirName recurse nodes).out = .returned names none → names ≠ [] →
    ∃ c ∈ nodes, hasStringField c "url" ∧ ifaceEqString (c.index "path") dirName = true
  | [], names, h, hne => by
    simp only [descentLoop] at h
    injection h with hv _
    exact absurd hv.symm hne
  | c :: rest, names, h, hne => by
    simp only [descentLoop] at h
    split at h
    · injection h with _ he; cases he
    · rename_i url hurl
      split at h
      · rename_i hm
        exact ⟨c, List.mem_cons_self _ _, ⟨url, assertString_some _ _ hurl⟩, hm⟩
      · obtain ⟨d, hd, hres⟩ := descentLoop_nonempty_entered dirName recurse rest names h hne
        exact ⟨d, List.mem_cons_of_mem _ hd, hres⟩

/-- Along a resolving path `_getname` returns the `path` fields of the terminal listing and
issues one request per segment plus one. -/
theorem getname_resolves (api : API) : ∀ (u : String) (segs : List String) (t : treeslice),
    Resolves api u segs t →
    ∃ names gets, _getname api u segs = ⟨.returned names none, gets⟩ ∧
      t.Tree.map (fun c => c.index "path") = names.map (fun n => some (Value.str n)) ∧
      gets.length = segs.length + 1 := by
  intro u segs t h
  induction h with
  | done u t hget hwf =>
    obtain ⟨names, hrun, hmap⟩ := baseLoop_strings t.Tree [] (fun c hc => (hwf c hc).2)
    exact ⟨names, [u], by simp [_getname, hget, hrun], hmap, rfl⟩
  | step u seg rest t c next terminal hget hwf hfind hurl _ ih =>
    obtain ⟨names, gets, hrun, hmap, hlen⟩ := ih
    refine ⟨names, u :: gets, ?_, hmap, by simp [hlen]⟩
    simp only [_getname, hget]
    rw [descentLoop_found seg _ t.Tree c next (fun d hd => (hwf d hd).1) hfind hurl, hrun]

/-! ## Errors come with empty results -/

theorem GetLatestReleases_error_empty (api : API) (n : Nat) (val : List (Option Release))
    (e : GoError) (h : (GetLatestReleases api n).out = .returned val (some e)) : val = [] := by
  unfold GetLatestReleases at h
  simp only at h
  repeat' split at h
  all_goals first
    | (injection h with hv _; exact hv.symm)
    | (injection h with _ he; cases he)

theorem GetLatestReleases_bad_status (api : API) (n : Nat) (resp : Response)
    (hget : api (releaseAPIURL n) = .ok resp) (hstatus : resp.StatusCode ≠ 200) :
    ∃ e, (GetLatestReleases api n).out = .returned [] (some e) := by
  unfold releaseAPIURL at hget
  simp only [GetLatestReleases, hget]
  rw [if_pos hstatus]
  exact ⟨_, rfl⟩

theorem getLatestReleaseNames_error_empty (api : API) (limit : Int) (val : List String)
    (e : GoError) (h : (getLatestReleaseNames api limit).out = .returned val (some e)) :
    val = [] := by
  rcases getLatestReleaseNames_cases api limit with ⟨r, hr⟩ | ⟨e', he⟩ | ⟨buf, n, hb⟩
  · rw [hr] at h; cases h
  · rw [he] at h; injection h with hv _; exact hv.symm
  · rw [hb] at h; injection h with _ he; cases he

theorem baseLoop_error_empty : ∀ (nodes : List Node) (ans val : List String) (e : GoError),
    baseLoop nodes ans = .returned val (some e) → val = []
  | [], _, _, _, h => by simp [baseLoop] at h
  | c :: rest, ans, val, e, h => by
    simp only [baseLoop] at h
    split at h
    · injection h with hv _; exact hv.symm
    · exact baseLoop_error_empty rest _ val e h

theorem descentLoop_error_empty (dirName : String) (recurse : String → Run (List String))
    (hrec : ∀ url val e, (recurse url).out = .returned val (some e) → val = []) :
    ∀ (nodes : List Node) (val : List String) (e : GoError),
    (descentLoop dirName recurse nodes).out = .returned val (some e) → val = []
  | [], _, _, h => by simp [descentLoop] at h
  | c :: rest, val, e, h => by
    simp only [descentLoop] at h
    split at h
    · injection h with hv _; exact hv.symm
    · split at h
      · exact hrec _ val e h
      · exact descentLoop_error_empty dirName recurse hrec rest val e h

theorem getname_error_empty (api : API) : ∀ (bpath : List String) (shaURL : String)
    (val : List String) (e : GoError),
    (_getname api shaURL bpath).out = .returned val (some e) → val = []
  | [], shaURL, val, e, h => by
    simp only [_getname] at h
    split at h
    · injection h with hv _; exact hv.symm
    · exact baseLoop_error_empty _ _ val e h
  | dirName :: bpath, shaURL, val, e, h => by
    simp only [_getname] at h
    split at h
    · injection h with hv _; exact hv.symm
    · exact descentLoop_error_empty dirName _
        (fun url v e' hv => getname_error_empty api bpath url v e' hv) _ val e h

theorem GetFileNames_error_empty (api : API) (url path : String) (val : List String)
    (e : GoError) (h : (GetFileNames api url path).out = .returned val (some e)) : val = [] := by
  unfold GetFileNames at h
  simp only at h
  split at h
  · injection h with hv _; exact hv.symm
  · split at h
    · injection h with hv _; exact hv.symm
    · split at h
      · injection h with hv _; exact hv.symm
      · split at h
        · cases h
        · split at h
          · injection h with _ he; cases he
          · rename_i ans err hwalk
            injection h with hv _
            subst hv
            exact getname_error_empty api _ _ _ _ hwalk
          · cases h

/-! ## Path splitting -/

/-- Splitting never yields an empty list of pieces. -/
theorem splitChars_ne_nil (sep : Char) : ∀ (l : List Char), splitChars sep l ≠ []
  | [] => by simp [splitChars]
  | c :: cs => by
    simp only [splitChars]
    split
    · simp
    · split <;> simp

/-- Joining the pieces with the separator gives the string back. -/
theorem splitChars_intercalate (sep : Char) : ∀ (l : List Char),
    List.intercalate [sep] (splitChars sep l) = l
  | [] => by simp [splitChars, List.intercalate]
  | c :: cs => by
    have ih := splitChars_intercalate sep cs
    simp only [splitChars]
    split
    · rename_i h
      cases hs : splitChars sep cs with
      | nil => exact absurd hs (splitChars_ne_nil sep cs)
      | cons p ps =>
        rw [hs] at ih
        simp [List.intercalate, List.intersperse] at ih ⊢
        simp [h, ih]
    · cases hs : splitChars sep cs with
      | nil => exact absurd hs (splitChars_ne_nil sep cs)
      | cons p ps =>
        rw [hs] at ih
        cases ps with
        | nil => simp [List.intercalate, List.intersperse] at ih ⊢; exact ih
        | cons q qs => simp [List.intercalate, List.intersperse] at ih ⊢; exact ih

/-- No piece contains the separator. -/
theorem splitChars_no_sep (sep : Char) : ∀ (l : List Char), ∀ piece ∈ splitChars sep l,
    sep ∉ piece
  | [], piece, h => by
    simp [splitChars] at h
    simp [h]
  | c :: cs, piece, h => by
    have ih := splitChars_no_sep sep cs
    simp only [splitChars] at h
    split at h
    · rcases List.mem_cons.mp h with rfl | h
      · simp
      · exact ih piece h
    · rename_i hc
      cases hs : splitChars sep cs with
      | nil => exact absurd hs (splitChars_ne_nil sep cs)
      | cons p ps =>
        rw [hs] at h ih
        rcases List.mem_cons.mp h with rfl | h
        · have := ih p (List.mem_cons_self _ _)
          simp only [List.mem_cons, not_or]
          exact ⟨fun e => hc e.symm, this⟩
        · exact ih piece (List.mem_cons_of_mem _ h)

/-- A trailing separator adds an empty last piece. -/
theorem splitChars_append_sep (sep : Char) : ∀ (l : List Char),
    splitChars sep (l ++ [sep]) = splitChars sep l ++ [[]]
  | [] => by simp [splitChars]
  | c :: cs => by
    have ih := splitChars_append_sep sep cs
    show splitChars sep (c :: (cs ++ [sep])) = splitChars sep (c :: cs) ++ [[]]
    simp only [splitChars]
    rw [ih]
    split
    · simp
    · cases hs : splitChars sep cs with
      | nil => exact absurd hs (splitChars_ne_nil sep _)
      | cons p ps => simp

theorem splitChars_trailing_sep (sep : Char) (l : List Char) :
    (splitChars sep (l ++ [sep])).getLast? = some [] := by
  simp [splitChars_append_sep]

theorem strings_Split_ne_nil (s : String) (sep : Char) : strings_Split s sep ≠ [] := by
  simp [strings_Split, splitChars_ne_nil]

theorem strings_Split_trailing_sep (s : String) (sep : Char) :
    (strings_Split (s ++ String.singleton sep) sep).getLast? = some "" := by
  have h : (s ++ String.singleton sep).toList = s.toList ++ [sep] := by
    simp [String.toList, String.singleton]
  simp only [strings_Split, h, List.getLast?_map, splitChars_trailing_sep]
  rfl

/-! ## Resolution of a path -/

theorem entry_wellFormed (nodes : List Node)
    (h : ∀ c ∈ nodes, ∃ path url, c = entry path url) : wellFormed { Tree := nodes } := by
  intro c hc
  obtain ⟨path, url, rfl⟩ := h c hc
  exact ⟨⟨url, rfl⟩, ⟨path, rfl⟩⟩

/-- In `fakeRepo` the path "a/b" resolves from the root to the leaf listing. -/
theorem fakeRepo_resolves :
    Resolves fakeRepo "tree/root" (strings_Split "a/b" '/') { Tree := leafListing } := by
  have hsplit : strings_Split "a/b" '/' = ["a", "b"] := by decide
  rw [hsplit]
  refine Resolves.step "tree/root" "a" ["b"] { Tree := rootListing } (entry "a" "tree/a")
    "tree/a" _ rfl ?_ rfl rfl ?_
  · exact entry_wellFormed _ (by simp [rootListing])
  refine Resolves.step "tree/a" "b" [] { Tree := aListing } (entry "b" "tree/b")
    "tree/b" _ rfl ?_ rfl rfl ?_
  · exact entry_wellFormed _ (by simp [aListing])
  refine Resolves.done "tree/b" _ rfl ?_
  exact entry_wellFormed _ (by simp [leafListing])

/-- After a successful commit lookup `GetFileNames` returns what the walk returns. -/
theorem GetFileNames_walk (api : API) (url path : String) (res : Response) (content : Body)
    (r0 : rootdir) (rs : List rootdir) (names : List String) (gets : List String)
    (hget : api (url ++ "/commits") = .ok res) (hread : res.ReadAll = .ok content)
    (hjson : content.unmarshalCommits = .ok (r0 :: rs))
    (hwalk : _getname api r0.Commit.Tree.URL (strings_Split path '/') =
      ⟨.returned names none, gets⟩) :
    GetFileNames api url path = ⟨.returned names none, (url ++ "/commits") :: gets⟩ := by
  simp only [GetFileNames, hget, hread, hjson, hwalk]

/-- An empty commit list makes `GetFileNames` panic at `r[0]`, whatever the path. -/
theorem GetFileNames_empty_commits_panics (api : API) (url path : String) (res : Response)
    (content : Body) (hget : api (url ++ "/commits") = .ok res)
    (hread : res.ReadAll = .ok content) (hjson : content.unmarshalCommits = .ok []) :
    GetFileNames api url path =
      ⟨.panicked "runtime error: index out of range [0] with length 0", [url ++ "/commits"]⟩ := by
  simp only [GetFileNames, hget, hread, hjson]

/-- The empty path against a root without an entry named "". -/
theorem GetFileNames_empty_path (api : API) (url : String) (res : Response)
    (content : Body) (r0 : rootdir) (rs : List rootdir) (t : treeslice)
    (hget : api (url ++ "/commits") = .ok res) (hread : res.ReadAll = .ok content)
    (hjson : content.unmarshalCommits = .ok (r0 :: rs))
    (htree : getTree api r0.Commit.Tree.URL = .ok t)
    (hurl : ∀ c ∈ t.Tree, hasStringField c "url")
    (hpath : ∀ c ∈ t.Tree, c.index "path" ≠ some (.str "")) :
    GetFileNames api url "" = ⟨.returned [] none, [url ++ "/commits", r0.Commit.Tree.URL]⟩ := by
  have hsplit : strings_Split "" '/' = [""] := by decide
  have hno : ∀ d ∈ t.Tree, ifaceEqString (d.index "path") "" = false := by
    intro d hd
    have := hpath d hd
    cases hv : d.index "path" with
    | none => rfl
    | some v =>
      cases v <;> try rfl
      rename_i s
      rw [hv] at this
      simp only [ifaceEqString]
      by_contra hne
      apply this
      simp at hne
      rw [hne]
  apply GetFileNames_walk api url "" res content r0 rs [] _ hget hread hjson
  rw [hsplit]
  simp only [_getname, htree]
  rw [descentLoop_not_found "" _ t.Tree hurl hno]

/-- A non-empty result of `GetFileNames` means the root entry named by the first segment
was entered. -/
theorem GetFileNames_nonempty_entered (api : API) (url path : String) (res : Response)
    (content : Body) (r0 : rootdir) (rs : List rootdir) (t : treeslice) (names : List String)
    (hget : api (url ++ "/commits") = .ok res) (hread : res.ReadAll = .ok content)
    (hjson : content.unmarshalCommits = .ok (r0 :: rs))
    (htree : getTree api r0.Commit.Tree.URL = .ok t)
    (hout : (GetFileNames api url path).out = .returned names none) (hne : names ≠ []) :
    ∃ seg rest c, strings_Split path '/' = seg :: rest ∧ c ∈ t.Tree ∧
      hasStringField c "url" ∧ ifaceEqString (c.index "path") seg = true := by
  cases hsplit : strings_Split path '/' with
  | nil => exact absurd hsplit (strings_Split_ne_nil path '/')
  | cons seg rest =>
    simp only [GetFileNames, hget, hread, hjson, hsplit, _getname, htree] at hout
    have hwalk : (descentLoop seg (fun u => _getname api u rest) t.Tree).out =
        .returned names none := by
      split at hout
      · rename_i ans heq
        injection hout with hv _
        rw [heq, hv]
      · injection hout with _ he; cases he
      · cases hout
    obtain ⟨c, hc, hu, hm⟩ := descentLoop_nonempty_entered seg _ t.Tree names hwalk hne
    exact ⟨seg, rest, c, rfl, hc, hu, hm⟩

/-! ## Release names: claims C1 to C3 -/

/-- Claim C1, evaluated on the code: with limit 5 and exactly three qualifying
releases, `getLatestReleaseNames` returns five entries, the three names followed
by two empty strings, where the claim promises exactly the three names. -/
theorem getLatestReleaseNames_pads_short_result :
    qualifyingNames (["1.2.3", "1.3.0", "2.0.0"].map releaseNamed) = ["1.2.3", "1.3.0", "2.0.0"] ∧
    (getLatestReleaseNames (releaseServer 200 ["1.2.3", "1.3.0", "2.0.0"]) 5).out =
      .returned ["2.0.0", "1.3.0", "1.2.3", "", ""] none := by
  decide

/-- Claim C2, evaluated on the code: the fetched names are "1.2.3", "" and "2.0.0";
the empty name does not match the version pattern, yet with limit 3 it is an entry
of the result, where the claim promises that every name that does not match is
excluded from the result. -/
theorem getLatestReleaseNames_returns_unmatched_empty_name :
    "" ∈ fetchedNames (["1.2.3", "", "2.0.0"].map releaseNamed) ∧
    versionRegexp.MatchString "" = false ∧
    (getLatestReleaseNames (releaseServer 200 ["1.2.3", "", "2.0.0"]) 3).out =
      .returned ["2.0.0", "1.2.3", ""] none := by
  decide

/-- Claim C3: whatever the remote side answers and whatever the limit, the
sequence returned by `getLatestReleaseNames` is in descending order under plain
string comparison: for all positions `i < j`, `result[i] >= result[j]`. -/
theorem getLatestReleaseNames_descending (api : API) (limit : Int) (result : List String)
    (err : Option GoError)
    (h : (getLatestReleaseNames api limit).out = .returned result err) :
    ∀ (i j : Nat) (hij : i < j) (hj : j < result.length),
      stringGreaterEq result[i] result[j] = true := by
  have hpw : result.Pairwise (fun a b => stringGreater b a = false) := by
    rcases getLatestReleaseNames_cases api limit with ⟨r, hr⟩ | ⟨e, he⟩ | ⟨buf, n, hb⟩
    · rw [hr] at h; cases h
    · rw [he] at h; injection h with hv _; subst hv; exact List.Pairwise.nil
    · rw [hb] at h; injection h with hv _; subst hv
      exact (sort_Slice_sorted buf).sublist (List.take_sublist _ _)
  intro i j hij hj
  have := List.pairwise_iff_getElem.mp hpw i j (by omega) hj hij
  simpa [stringGreaterEq, stringGreater] using this

/-- Claim C3 at fetched names "2.10.0" and "2.9.0" with limit 2: the result is
`["2.9.0", "2.10.0"]`, and "2.9.0" >= "2.10.0" as strings. -/
theorem getLatestReleaseNames_descending_witness :
    (getLatestReleaseNames (releaseServer 200 ["2.10.0", "2.9.0"]) 2).out =
      .returned ["2.9.0", "2.10.0"] none ∧
    stringGreaterEq "2.9.0" "2.10.0" = true :=
  ⟨by decide,
   getLatestReleaseNames_descending (releaseServer 200 ["2.10.0", "2.9.0"]) 2
     ["2.9.0", "2.10.0"] none (by decide) 0 1 (by decide) (by decide)⟩

/-! ## File names: claims C4 to C7 -/

/-- Claim C4: when the commit list is fetched and non-empty and the path resolves
(each segment names an entry of the listing reached so far, all entries having
string `url` and `path` fields), `GetFileNames` returns with a nil error exactly
the `path` fields of the nodes of the terminal listing, in the order supplied:
same length, and position by position the same strings. -/
theorem GetFileNames_lists_terminal_tree (api : API) (url path : String) (res : Response)
    (content : Body) (r0 : rootdir) (rs : List rootdir) (terminal : treeslice)
    (hget : api (url ++ "/commits") = .ok res) (hread : res.ReadAll = .ok content)
    (hjson : content.unmarshalCommits = .ok (r0 :: rs))
    (hres : Resolves api r0.Commit.Tree.URL (strings_Split path '/') terminal) :
    ∃ names, (GetFileNames api url path).out = .returned names none ∧
      names.length = terminal.Tree.length ∧
      terminal.Tree.map (fun c => c.index "path") = names.map (fun n => some (Value.str n)) := by
  obtain ⟨names, gets, hrun, hmap, _⟩ := getname_resolves api _ _ _ hres
  refine ⟨names, ?_, ?_, hmap⟩
  · rw [GetFileNames_walk api url path res content r0 rs names gets hget hread hjson hrun]
  · have := congrArg List.length hmap
    simpa using this.symm

/-- Claim C4 on the tree `root -> "a" -> "b"` with leaf entries `x.yaml` and
`y.yaml`: resolving "a/b" returns `["x.yaml", "y.yaml"]`. -/
theorem GetFileNames_lists_terminal_tree_witness :
    (GetFileNames fakeRepo "https://api.test/repo" "a/b").out =
      .returned ["x.yaml", "y.yaml"] none ∧
    ∃ names, (GetFileNames fakeRepo "https://api.test/repo" "a/b").out = .returned names none ∧
      names.length = leafListing.length ∧
      leafListing.map (fun c => c.index "path") = names.map (fun n => some (Value.str n)) :=
  ⟨by decide,
   GetFileNames_lists_terminal_tree fakeRepo "https://api.test/repo" "a/b"
     { StatusCode := 200,
       ReadAll := .ok (commitsBody [{ Commit := { Tree := { URL := "tree/root" } } }]),
       Close := none }
     (commitsBody [{ Commit := { Tree := { URL := "tree/root" } } }])
     { Commit := { Tree := { URL := "tree/root" } } } [] { Tree := leafListing }
     rfl rfl rfl fakeRepo_resolves⟩

/-- Claim C5, evaluated on the code: resolving "a/zzz" when the listing of `a` has
no entry named "zzz" returns the empty sequence with a nil error, where the claim
promises a non-nil error. -/
theorem GetFileNames_missing_segment_returns_empty :
    strings_Split "a/zzz" '/' = ["a", "zzz"] ∧
    (∀ c ∈ aListing, ifaceEqString (c.index "path") "zzz" = false) ∧
    GetFileNames fakeRepo "https://api.test/repo" "a/zzz" =
      ⟨.returned [] none, ["https://api.test/repo/commits", "tree/root", "tree/a"]⟩ := by
  decide

/-- Claim C6, evaluated on the code: when the commit list decodes to the empty
list, `GetFileNames` does not return an error; the access `r[0]` is out of bounds
and the call panics. -/
theorem GetFileNames_empty_commit_list_panics :
    GetFileNames emptyRepo "https://api.test/repo" "a/b" =
      ⟨.panicked "runtime error: index out of range [0] with length 0", ["https://api.test/repo/commits"]⟩ := by
  decide

/-- When the descent loop enters a node, its result is that of the recursive call. -/
theorem descentLoop_enters (dirName : String) (recurse : String → Run (List String)) :
    ∀ (pre : List Node) (c : Node) (post : List Node) (next : String),
    (∀ d ∈ pre, hasStringField d "url" ∧ ifaceEqString (d.index "path") dirName = false) →
    c.index "url" = some (.str next) → ifaceEqString (c.index "path") dirName = true →
    descentLoop dirName recurse (pre ++ c :: post) = recurse next
  | [], c, post, next, _, hurl, hpath => by
    simp only [List.nil_append, descentLoop, hurl, assertString, hpath, if_true]
  | d :: pre, c, post, next, hpre, hurl, hpath => by
    obtain ⟨⟨u, hu⟩, hd⟩ := hpre d (List.mem_cons_self _ _)
    simp only [List.cons_append, descentLoop, hu, assertString, hd]
    simp only [Bool.false_eq_true, if_false]
    exact descentLoop_enters dirName recurse pre c post next
      (fun e he => hpre e (List.mem_cons_of_mem _ he)) hurl hpath

/-- A call reached by the walk hands its values and its error back unchanged
(line 182, `return tempans, err`). -/
theorem getname_reaches_out (api : API) (u : String) (segs : List String) (shaURL : String)
    (remaining : List String) (h : Reaches api u segs shaURL remaining) :
    (_getname api u segs).out = (_getname api shaURL remaining).out := by
  induction h with
  | start u segs => rfl
  | descend u seg rest t next shaURL remaining htree henters _ ih =>
    obtain ⟨pre, c, post, hsplit, hpre, hurl, hpath⟩ := henters
    rw [← ih]
    simp only [_getname, htree, hsplit]
    rw [descentLoop_enters seg _ pre c post next hpre hurl hpath]

/-- An error of the walk is returned by `GetFileNames` wrapped, with the same values. -/
theorem GetFileNames_walk_error (api : API) (url path : String) (res : Response)
    (content : Body) (r0 : rootdir) (rs : List rootdir) (val : List String) (e : GoError)
    (hget : api (url ++ "/commits") = .ok res) (hread : res.ReadAll = .ok content)
    (hjson : content.unmarshalCommits = .ok (r0 :: rs))
    (hwalk : (_getname api r0.Commit.Tree.URL (strings_Split path '/')).out =
      .returned val (some e)) :
    (GetFileNames api url path).out = .returned val (some (.ErrGetManifestNames e)) := by
  simp only [GetFileNames, hget, hread, hjson]
  split
  · rename_i heq; rw [hwalk] at heq; injection heq with _ he; cases he
  · rename_i heq; rw [hwalk] at heq; injection heq with hv he
    injection he with he
    rw [hv, he]
  · rename_i heq; rw [hwalk] at heq; cases heq

/-- The errors of one call of `_getname` on an ill-typed listing. -/
theorem getname_listing_errors (api : API) (shaURL : String) (t : treeslice)
    (hget : getTree api shaURL = .ok t) :
    (∀ (dirName : String) (rest : List String) (pre : List Node) (c : Node) (post : List Node),
      t.Tree = pre ++ c :: post →
      (∀ d ∈ pre, ifaceEqString (d.index "path") dirName = false) →
      presentNotString c "url" →
      (_getname api shaURL (dirName :: rest)).out =
        .returned [] (some (.msg "invalid URL field"))) ∧
    (∀ c ∈ t.Tree, presentNotString c "path" →
      (_getname api shaURL []).out = .returned [] (some (.msg "invalid path field"))) := by
  constructor
  · intro dirName rest pre c post hsplit hpre hbad
    simp only [_getname, hget, hsplit]
    rw [descentLoop_bad_url dirName _ pre c post hpre (presentNotString_assert c "url" hbad)]
  · intro c hc hbad
    simp only [_getname, hget]
    exact baseLoop_bad_path t.Tree [] c hc (presentNotString_assert c "path" hbad)

/-- In `mixedRepo` the walk for a path starting with "a" reaches the listing of `a`. -/
theorem mixedRepo_reaches_a (rest : List String) :
    Reaches mixedRepo "mixed/root" ("a" :: rest) "mixed/a" rest :=
  Reaches.descend "mixed/root" "a" rest { Tree := mixedRoot } "mixed/a" "mixed/a" rest rfl
    ⟨[numericPathNode], entry "a" "mixed/a", [numericURLNode], rfl,
      (fun d hd => by
        rw [List.mem_singleton.mp hd]
        exact ⟨⟨"tree/seven", rfl⟩, rfl⟩),
      rfl, rfl⟩
    (Reaches.start "mixed/a" rest)

/-- In `mixedRepo` the walk for the path "a/sub" reaches the listing of `a/sub`. -/
theorem mixedRepo_reaches_sub :
    Reaches mixedRepo "mixed/root" ["a", "sub"] "mixed/sub" [] :=
  Reaches.descend "mixed/root" "a" ["sub"] { Tree := mixedRoot } "mixed/a" "mixed/sub" [] rfl
    ⟨[numericPathNode], entry "a" "mixed/a", [numericURLNode], rfl,
      (fun d hd => by
        rw [List.mem_singleton.mp hd]
        exact ⟨⟨"tree/seven", rfl⟩, rfl⟩),
      rfl, rfl⟩
    (Reaches.descend "mixed/a" "sub" [] { Tree := mixedA } "mixed/sub" "mixed/sub" [] rfl
      ⟨[], entry "sub" "mixed/sub", [numericURLNode], rfl, (fun _ hd => by cases hd), rfl, rfl⟩
      (Reaches.start "mixed/sub" []))

/-- Claim C7 fails as stated: `GetFileNames` on `mixedRepo` with the path "a"
fetches the root listing and the listing of `a`. The root listing holds a node
whose `path` is a number (examined and passed over in the descent step) and a
node whose `url` is a number (after the entered node, never examined); the
listing of `a`, read in the base case, holds a node whose `url` is a number. The
call returns the two names with a nil error. -/
theorem GetFileNames_leaves_fields_unchecked :
    strings_Split "a" '/' = ["a"] ∧
    getTree mixedRepo "mixed/root" = .ok { Tree := mixedRoot } ∧
    Reaches mixedRepo "mixed/root" ["a"] "mixed/a" [] ∧
    getTree mixedRepo "mixed/a" = .ok { Tree := mixedA } ∧
    mixedRoot = [numericPathNode, entry "a" "mixed/a", numericURLNode] ∧
    mixedA = [entry "sub" "mixed/sub", numericURLNode] ∧
    presentNotString numericPathNode "path" ∧
    presentNotString numericURLNode "url" ∧
    GetFileNames mixedRepo "https://api.test/mixed" "a" =
      ⟨.returned ["sub", "x.yaml"] none,
        ["https://api.test/mixed/commits", "mixed/root", "mixed/a"]⟩ :=
  ⟨by decide, rfl, mixedRepo_reaches_a [], rfl, rfl, rfl,
   ⟨.number "7", rfl, fun _ h => by cases h⟩,
   ⟨.number "5", rfl, fun _ h => by cases h⟩,
   by decide⟩

/-- Claim C7, amended: let `GetFileNames` have fetched a non-empty commit list and
let its walk reach the call of `_getname` that fetches the listing `t`, at any
recursion level. (1) If that call is a descent step and a node of `t` has a `url`
field that is present but not a string, while no node before it in `t` has `path`
equal to the wanted segment, then the walk fails with the error "invalid URL
field" and `GetFileNames` returns that error, wrapped, with an empty sequence.
(2) If that call is the base case and some node of `t` has a `path` field that is
present but not a string, then the walk fails with the error "invalid path field"
and `GetFileNames` returns that error, wrapped, with an empty sequence. -/
theorem GetFileNames_schema_errors (api : API) (url path : String) (res : Response)
    (content : Body) (r0 : rootdir) (rs : List rootdir)
    (shaURL : String) (remaining : List String) (t : treeslice)
    (hget : api (url ++ "/commits") = .ok res) (hread : res.ReadAll = .ok content)
    (hjson : content.unmarshalCommits = .ok (r0 :: rs))
    (hreach : Reaches api r0.Commit.Tree.URL (strings_Split path '/') shaURL remaining)
    (htree : getTree api shaURL = .ok t) :
    (∀ (dirName : String) (rest : List String) (pre : List Node) (c : Node) (post : List Node),
      remaining = dirName :: rest → t.Tree = pre ++ c :: post →
      (∀ d ∈ pre, ifaceEqString (d.index "path") dirName = false) →
      presentNotString c "url" →
      (_getname api r0.Commit.Tree.URL (strings_Split path '/')).out =
          .returned [] (some (.msg "invalid URL field")) ∧
        (GetFileNames api url path).out =
          .returned [] (some (.ErrGetManifestNames (.msg "invalid URL field")))) ∧
    (remaining = [] → ∀ c ∈ t.Tree, presentNotString c "path" →
      (_getname api r0.Commit.Tree.URL (strings_Split path '/')).out =
          .returned [] (some (.msg "invalid path field")) ∧
        (GetFileNames api url path).out =
          .returned [] (some (.ErrGetManifestNames (.msg "invalid path field")))) := by
  have hout := getname_reaches_out api _ _ _ _ hreach
  constructor
  · intro dirName rest pre c post hrem hsplit hpre hbad
    subst hrem
    have hwalk : (_getname api r0.Commit.Tree.URL (strings_Split path '/')).out =
        .returned [] (some (.msg "invalid URL field")) := by
      rw [hout]
      exact (getname_listing_errors api shaURL t htree).1 dirName rest pre c post hsplit hpre hbad
    exact ⟨hwalk, GetFileNames_walk_error api url path res content r0 rs _ _ hget hread hjson hwalk⟩
  · intro hrem c hc hbad
    subst hrem
    have hwalk : (_getname api r0.Commit.Tree.URL (strings_Split path '/')).out =
        .returned [] (some (.msg "invalid path field")) := by
      rw [hout]
      exact (getname_listing_errors api shaURL t htree).2 c hc hbad
    exact ⟨hwalk, GetFileNames_walk_error api url path res content r0 rs _ _ hget hread hjson hwalk⟩

/-- Claim C7, amended, on `mixedRepo`. The path "a/zzz" reaches the listing of
`a` one level down, where the numeric `url` stands after the entry `sub`, which is
not named "zzz": the call fails. The path "a/sub" reaches the listing of `a/sub`
two levels down in the base case, where the second node has a numeric `path`: the
call fails. -/
theorem GetFileNames_schema_errors_witness :
    (GetFileNames mixedRepo "https://api.test/mixed" "a/zzz").out =
      .returned [] (some (.ErrGetManifestNames (.msg "invalid URL field"))) ∧
    (GetFileNames mixedRepo "https://api.test/mixed" "a/sub").out =
      .returned [] (some (.ErrGetManifestNames (.msg "invalid path field"))) :=
  ⟨((GetFileNames_schema_errors mixedRepo "https://api.test/mixed" "a/zzz"
      { StatusCode := 200,
        ReadAll := .ok (commitsBody [{ Commit := { Tree := { URL := "mixed/root" } } }]),
        Close := none }
      (commitsBody [{ Commit := { Tree := { URL := "mixed/root" } } }])
      { Commit := { Tree := { URL := "mixed/root" } } } []
      "mixed/a" ["zzz"] { Tree := mixedA } rfl rfl rfl (mixedRepo_reaches_a ["zzz"]) rfl).1
      "zzz" [] [entry "sub" "mixed/sub"] numericURLNode [] rfl rfl
      (fun d hd => by rw [List.mem_singleton.mp hd]; rfl)
      ⟨.number "5", rfl, fun _ h => by cases h⟩).2,
   ((GetFileNames_schema_errors mixedRepo "https://api.test/mixed" "a/sub"
      { StatusCode := 200,
        ReadAll := .ok (commitsBody [{ Commit := { Tree := { URL := "mixed/root" } } }]),
        Close := none }
      (commitsBody [{ Commit := { Tree := { URL := "mixed/root" } } }])
      { Commit := { Tree := { URL := "mixed/root" } } } []
      "mixed/sub" [] { Tree := mixedSub } rfl rfl rfl mixedRepo_reaches_sub rfl).2
      rfl numericPathNode (List.mem_cons_of_mem _ (List.mem_cons_self _ _))
      ⟨.number "7", rfl, fun _ h => by cases h⟩).2⟩

/-! ## Errors, requests and empty paths: claims C8 to C10 -/

/-- Claim C8: whenever `GetLatestReleases`, `getLatestReleaseNames`, `GetFileNames`
or `_getname` (at any level of its recursion) returns a non-nil error, the
sequence returned with it has length zero; and when the release endpoint answers
with a status other than 200, `GetLatestReleases` returns a non-nil error with the
empty sequence, whatever the body. -/
theorem error_comes_with_empty_result (api : API) :
    (∀ (n : Nat) (val : List (Option Release)) (e : GoError),
      (GetLatestReleases api n).out = .returned val (some e) → val.length = 0) ∧
    (∀ (limit : Int) (val : List String) (e : GoError),
      (getLatestReleaseNames api limit).out = .returned val (some e) → val.length = 0) ∧
    (∀ (url path : String) (val : List String) (e : GoError),
      (GetFileNames api url path).out = .returned val (some e) → val.length = 0) ∧
    (∀ (shaURL : String) (bpath val : List String) (e : GoError),
      (_getname api shaURL bpath).out = .returned val (some e) → val.length = 0) ∧
    (∀ (n : Nat) (resp : Response), api (releaseAPIURL n) = .ok resp → resp.StatusCode ≠ 200 →
      ∃ e, (GetLatestReleases api n).out = .returned [] (some e)) :=
  ⟨fun n val e h => by rw [GetLatestReleases_error_empty api n val e h]; rfl,
   fun limit val e h => by rw [getLatestReleaseNames_error_empty api limit val e h]; rfl,
   fun url path val e h => by rw [GetFileNames_error_empty api url path val e h]; rfl,
   fun shaURL bpath val e h => by rw [getname_error_empty api bpath shaURL val e h]; rfl,
   fun n resp hget hstatus => GetLatestReleases_bad_status api n resp hget hstatus⟩

/-- Claim C8 on `oddRepo`: the release endpoint answers 500 and the tree listings
are ill-typed; each function returns its error with the empty sequence. -/
theorem error_comes_with_empty_result_witness :
    (GetLatestReleases oddRepo 30).out = .returned []
      (some (.ErrGetLatestReleases (.msg "unexpected status code: 500"))) ∧
    (getLatestReleaseNames oddRepo 2).out = .returned []
      (some (.ErrGetLatestReleaseNames
        (.ErrGetLatestReleases (.msg "unexpected status code: 500")))) ∧
    (GetFileNames oddRepo "https://api.test/repo" "x.yaml").out = .returned []
      (some (.ErrGetManifestNames (.msg "invalid URL field"))) ∧
    (_getname oddRepo "tree/odd2" []).out = .returned []
      (some (.msg "invalid path field")) ∧
    ([] : List (Option Release)).length = 0 ∧ ([] : List String).length = 0 ∧
    ∃ e, (GetLatestReleases oddRepo 30).out = .returned [] (some e) :=
  ⟨by decide, by decide, by decide, by decide,
   (error_comes_with_empty_result oddRepo).1 30 []
     (.ErrGetLatestReleases (.msg "unexpected status code: 500")) (by decide),
   (error_comes_with_empty_result oddRepo).2.2.1 "https://api.test/repo" "x.yaml" []
     (.ErrGetManifestNames (.msg "invalid URL field")) (by decide),
   (error_comes_with_empty_result oddRepo).2.2.2.2 30
     { StatusCode := 500, ReadAll := .ok (releasesBody ["1.2.3"]), Close := none }
     rfl (by decide)⟩

/-- Claim C9 fails as stated: the path "a/b" has two segments and resolves, and
`GetFileNames` issues four requests (commits, root tree, tree of `a`, tree of
`b`), not three. -/
theorem GetFileNames_requests_exceed_segments_plus_one :
    Resolves fakeRepo "tree/root" (strings_Split "a/b" '/') { Tree := leafListing } ∧
    (GetFileNames fakeRepo "https://api.test/repo" "a/b").out =
      .returned ["x.yaml", "y.yaml"] none ∧
    (strings_Split "a/b" '/').length = 2 ∧
    (GetFileNames fakeRepo "https://api.test/repo" "a/b").gets =
      ["https://api.test/repo/commits", "tree/root", "tree/a", "tree/b"] ∧
    (GetFileNames fakeRepo "https://api.test/repo" "a/b").gets.length ≠
      (strings_Split "a/b" '/').length + 1 :=
  ⟨fakeRepo_resolves, by decide, by decide, by decide, by decide⟩

/-- Claim C9, amended: for a path with `n` segments that resolves, `GetFileNames`
issues exactly `n + 2` requests: one for the commit list, one for the root tree
and one per path segment. -/
theorem GetFileNames_request_count (api : API) (url path : String) (res : Response)
    (content : Body) (r0 : rootdir) (rs : List rootdir) (terminal : treeslice)
    (hget : api (url ++ "/commits") = .ok res) (hread : res.ReadAll = .ok content)
    (hjson : content.unmarshalCommits = .ok (r0 :: rs))
    (hres : Resolves api r0.Commit.Tree.URL (strings_Split path '/') terminal) :
    (GetFileNames api url path).gets.length = (strings_Split path '/').length + 2 := by
  obtain ⟨names, gets, hrun, _, hlen⟩ := getname_resolves api _ _ _ hres
  rw [GetFileNames_walk api url path res content r0 rs names gets hget hread hjson hrun]
  simp [hlen]

/-- Claim C9, amended, on `fakeRepo` and the path "a/b". -/
theorem GetFileNames_request_count_witness :
    (GetFileNames fakeRepo "https://api.test/repo" "a/b").gets.length =
      (strings_Split "a/b" '/').length + 2 :=
  GetFileNames_request_count fakeRepo "https://api.test/repo" "a/b"
    { StatusCode := 200,
      ReadAll := .ok (commitsBody [{ Commit := { Tree := { URL := "tree/root" } } }]),
      Close := none }
    (commitsBody [{ Commit := { Tree := { URL := "tree/root" } } }])
    { Commit := { Tree := { URL := "tree/root" } } } [] { Tree := leafListing }
    rfl rfl rfl fakeRepo_resolves

/-- Claim C10: splitting any path on "/" yields at least one segment, the empty
path yields the one segment "", and a path ending in "/" ends with the segment "";
so the walk always starts with a descent step. Against a repository whose root
entries all have string `url` fields and none of which has `path` equal to "",
`GetFileNames(url, "")` returns the empty sequence with a nil error after two
requests; and whenever `GetFileNames` returns a non-empty sequence with a nil
error, the root listing has an entry named by the first segment that was
entered. -/
theorem GetFileNames_never_starts_in_base_case :
    (∀ path : String, strings_Split path '/' ≠ []) ∧
    strings_Split "" '/' = [""] ∧
    (∀ p : String, (strings_Split (p ++ "/") '/').getLast? = some "") ∧
    (∀ (api : API) (url : String) (res : Response) (content : Body) (r0 : rootdir)
      (rs : List rootdir) (t : treeslice),
      api (url ++ "/commits") = .ok res → res.ReadAll = .ok content →
      content.unmarshalCommits = .ok (r0 :: rs) →
      getTree api r0.Commit.Tree.URL = .ok t →
      (∀ c ∈ t.Tree, hasStringField c "url") →
      (∀ c ∈ t.Tree, c.index "path" ≠ some (.str "")) →
      GetFileNames api url "" =
        ⟨.returned [] none, [url ++ "/commits", r0.Commit.Tree.URL]⟩) ∧
    (∀ (api : API) (url path : String) (res : Response) (content : Body) (r0 : rootdir)
      (rs : List rootdir) (t : treeslice) (names : List String),
      api (url ++ "/commits") = .ok res → res.ReadAll = .ok content →
      content.unmarshalCommits = .ok (r0 :: rs) →
      getTree api r0.Commit.Tree.URL = .ok t →
      (GetFileNames api url path).out = .returned names none → names ≠ [] →
      ∃ seg rest c, strings_Split path '/' = seg :: rest ∧ c ∈ t.Tree ∧
        hasStringField c "url" ∧ ifaceEqString (c.index "path") seg = true) :=
  ⟨fun path => strings_Split_ne_nil path '/',
   by decide,
   fun p => strings_Split_trailing_sep p '/',
   fun api url res content r0 rs t hget hread hjson htree hurl hpath =>
     GetFileNames_empty_path api url res content r0 rs t hget hread hjson htree hurl hpath,
   fun api url path res content r0 rs t names hget hread hjson htree hout hne =>
     GetFileNames_nonempty_entered api url path res content r0 rs t names hget hread hjson
       htree hout hne⟩

/-- Claim C10 on `fakeRepo`: the root holds `README.md` and `a`, the empty path
returns nothing with a nil error, and "a/" ends with an empty segment. -/
theorem GetFileNames_never_starts_in_base_case_witness :
    GetFileNames fakeRepo "https://api.test/repo" "" =
      ⟨.returned [] none, ["https://api.test/repo/commits", "tree/root"]⟩ ∧
    rootListing.map (fun c => c.index "path") =
      [some (.str "README.md"), some (.str "a")] ∧
    (strings_Split "a/" '/').getLast? = some "" :=
  ⟨GetFileNames_never_starts_in_base_case.2.2.2.1 fakeRepo "https://api.test/repo"
     { StatusCode := 200,
       ReadAll := .ok (commitsBody [{ Commit := { Tree := { URL := "tree/root" } } }]),
       Close := none }
     (commitsBody [{ Commit := { Tree := { URL := "tree/root" } } }])
     { Commit := { Tree := { URL := "tree/root" } } } [] { Tree := rootListing }
     rfl rfl rfl rfl
     (fun c hc => (entry_wellFormed rootListing (by simp [rootListing]) c hc).1)
     (by
       intro c hc
       simp only [rootListing, List.mem_cons, List.mem_singleton, List.not_mem_nil,
         or_false] at hc
       rcases hc with rfl | rfl <;>
         (intro h; injection h with h; injection h with h; revert h; decide)),
   rfl,
   GetFileNames_never_starts_in_base_case.2.2.1 "a"⟩

end MesheryOSM
